import Mathlib

/-!
Verification of the tensorcat repository core: layout/range normalization
(`format_img`), grid-size selection (`get_grid_size`), batch tiling
(`tile_img`) and the iTerm2 inline-image protocol encoder (`img2str`).

The Python source is shallowly embedded: numeric arrays become explicit
shape data plus total index functions with rational element values,
numpy's `uint8` casts become truncation to `Nat`, exceptional paths
(`ValueError` on shape inference, `ValueError` on reductions over empty
arrays, and the division-by-zero in the out-of-range rescale) become an
`Except` error type.
-/

/-- Ceiling division on naturals: `int(np.ceil(b / n))` for positive `n`
(the source computes it with float division and `np.ceil`). -/
def ceilDiv (a n : Nat) : Nat := (a + n - 1) / n

/-- Ceiling of a rational as an integer (`np.ceil`). -/
def qceil (q : ℚ) : ℤ := -(Rat.floor (-q))

/-- `int(np.ceil(np.sqrt(q)))` for `q : ℚ`: the least natural `n` with
`q ≤ n^2`, embedding the float `sqrt`/`ceil` composite exactly. -/
def sqrtCeil (q : ℚ) : Nat :=
  let n := Nat.sqrt (qceil q).toNat
  if q ≤ (n * n : Nat) then n else n + 1

/-- Embedding of `get_grid_size(b, h, w, nrow, ncol)` from
`src/tensorcat/tensorcat.py`: `0` means "not supplied". -/
def get_grid_size (b h w : Nat) (nrow ncol : Nat) : Nat × Nat :=
  if nrow ≠ 0 then
    (nrow, ceilDiv b nrow)
  else if ncol ≠ 0 then
    (ceilDiv b ncol, ncol)
  else
    let ncol := sqrtCeil ((b : ℚ) / w * h)
    (ceilDiv b ncol, ncol)

/-! ## Protocol encoder (`src/tensorcat/iterm2.py`)

`img2str` is embedded with the environment's `TERM` value and the
JPEG-encoded payload (already base64-encoded, with its byte size) passed
as explicit parameters: the codec and `os.environ` are the external
collaborators of the source.  The `base64.b64encode` used for the `name`
field is implemented on byte lists. -/

/-- `str.startswith`, on character lists (kernel-reducible, unlike the
byte-position-based `String.startsWith`). -/
def pyStartsWith (s p : String) : Bool := p.data.isPrefixOf s.data

/-- One character of the standard base64 alphabet. -/
def b64Char (n : Nat) : Char :=
  if n < 26 then Char.ofNat (65 + n)
  else if n < 52 then Char.ofNat (97 + (n - 26))
  else if n < 62 then Char.ofNat (48 + (n - 52))
  else if n = 62 then '+'
  else '/'

/-- Standard base64 of a byte list, 3-byte groups to 4 characters with
`=` padding (semantics of Python's `base64.b64encode`). -/
def b64Chunks : List Nat → List Char
  | b0 :: b1 :: b2 :: rest =>
    let n := b0 * 65536 + b1 * 256 + b2
    b64Char (n / 262144) :: b64Char (n / 4096 % 64) :: b64Char (n / 64 % 64) ::
      b64Char (n % 64) :: b64Chunks rest
  | [b0, b1] =>
    let n := b0 * 65536 + b1 * 256
    [b64Char (n / 262144), b64Char (n / 4096 % 64), b64Char (n / 64 % 64), '=']
  | [b0] =>
    let n := b0 * 65536
    [b64Char (n / 262144), b64Char (n / 4096 % 64), '=', '=']
  | [] => []

def b64encode (bs : List Nat) : String := String.mk (b64Chunks bs)

/-- UTF-8 bytes of a string (`str.encode()`). -/
def utf8Bytes (s : String) : List Nat := s.toUTF8.toList.map (fun b => b.toNat)

/-- Embedding of `img2str` from `src/tensorcat/iterm2.py`.  `term` is the
value of the `TERM` environment variable (empty when unset), `imgB64` the
base64 of the JPEG bytes produced by the external codec and `imgSize`
their byte count. -/
def img2str (term : String) (imgB64 : String) (imgSize : Nat)
    (inline : Bool) (name width height : String)
    (preserve_aspect_ratio : Bool) (file_type : String) : String :=
  let oscSt : String × String :=
    if pyStartsWith term "tmux" || pyStartsWith term "screen" then
      ("\x1bPtmux;\x1b\x1b]", "\x07\x1b\\")
    else
      ("\x1b]", "\x07")
  let osc := oscSt.1
  let st := oscSt.2
  let ctrl0 : List String :=
    [osc ++ "1337;File=inline=" ++ (if inline then "1" else "0") ++ ";size=" ++ toString imgSize]
  let ctrl1 := if name ≠ "" then ctrl0 ++ [";name=" ++ b64encode (utf8Bytes name)] else ctrl0
  let ctrl2 := if width ≠ "" then ctrl1 ++ [";width=" ++ width] else ctrl1
  let ctrl3 := if height ≠ "" then ctrl2 ++ [";height=" ++ height] else ctrl2
  let ctrl4 := ctrl3 ++ [";preserveAspectRatio=" ++ (if preserve_aspect_ratio then "1" else "0")]
  let ctrl5 := if file_type ≠ "" then ctrl4 ++ [";type=" ++ file_type] else ctrl4
  let ctrl6 := ctrl5 ++ [":" ++ imgB64 ++ st]
  String.join ctrl6

/-- The spec's fixed-order semicolon-delimited parameter list (§4.3 steps
5-6), written from the spec's words for comparison with `img2str`:
`1337;File=inline=<0|1>;size=<size>`, then `name`/`width`/`height` only
when non-empty (name base64-encoded), then always `preserveAspectRatio`,
then `type` only when non-empty, then `:` and the payload. -/
def specEncodeBody (imgB64 : String) (imgSize : Nat) (inline : Bool)
    (name width height : String) (par : Bool) (fileType : String) : String :=
  "1337;File=inline=" ++ (if inline then "1" else "0") ++ ";size=" ++ toString imgSize
    ++ (if name = "" then "" else ";name=" ++ b64encode (utf8Bytes name))
    ++ (if width = "" then "" else ";width=" ++ width)
    ++ (if height = "" then "" else ";height=" ++ height)
    ++ ";preserveAspectRatio=" ++ (if par then "1" else "0")
    ++ (if fileType = "" then "" else ";type=" ++ fileType)
    ++ ":" ++ imgB64

/-- The spec's framing opener by `TERM` value (§4.3 step 4). -/
def oscOf (term : String) : String :=
  if pyStartsWith term "tmux" || pyStartsWith term "screen" then "\x1bPtmux;\x1b\x1b]"
  else "\x1b]"

/-- The framing terminator actually emitted by the source by `TERM` value:
`BEL ESC \` under tmux/screen passthrough, `BEL` otherwise. -/
def stOf (term : String) : String :=
  if pyStartsWith term "tmux" || pyStartsWith term "screen" then "\x07\x1b\\"
  else "\x07"

/-! ## Canonicalizer (`format_img` in `src/tensorcat/tensorcat.py`)

Raw arrays of rank 2/3/4 are embedded as explicit axis sizes plus a total
index function with rational values.  The three stages of `format_img`
follow the source: shape inference (with the `ValueError` on rank-4
arrays giving no channel evidence), range inference over the global
min/max (numpy's `min`/`max` raise on empty arrays; the out-of-range
rescale divides by zero when `max == min`, modelled as `divByZero`), and
the force-RGB channel step. -/

/-- A rank-4 array with rational elements. -/
structure Arr4Q where
  b : Nat
  h : Nat
  w : Nat
  c : Nat
  data : Nat → Nat → Nat → Nat → ℚ

/-- A rank-4 array with 8-bit natural elements. -/
structure Arr4N where
  b : Nat
  h : Nat
  w : Nat
  c : Nat
  data : Nat → Nat → Nat → Nat → Nat

/-- A raw input array of rank 2, 3 or 4. -/
inductive RawTensor where
  | r2 (d0 d1 : Nat) (f : Nat → Nat → ℚ)
  | r3 (d0 d1 d2 : Nat) (f : Nat → Nat → Nat → ℚ)
  | r4 (d0 d1 d2 d3 : Nat) (f : Nat → Nat → Nat → Nat → ℚ)

/-- Failure modes of `format_img`: the `ValueError` raised on rank-4
shape-inference failure, numpy's `ValueError` for `min`/`max` over an
empty array, and the division by zero of the out-of-range rescale when
`max == min` (in numpy a `0/0` NaN whose uint8 cast is undefined). -/
inductive FmtErr where
  | shapeErr
  | emptyErr
  | divByZero
  deriving DecidableEq

/-- Shape-inference stage of `format_img` (lines 47-68 of tensorcat.py):
returns the `format_guess` label and the `[B,H,W,C]`-reshaped array, or
`none` for the `raise ValueError` branch. -/
def shape_stage : RawTensor → String × Option Arr4Q
  | .r2 d0 d1 f => ("HW", some ⟨1, d0, d1, 1, fun _ i j _ => f i j⟩)
  | .r3 d0 d1 d2 f =>
    if d0 = 1 ∨ d0 = 3 then
      ("CHW", some ⟨1, d1, d2, d0, fun _ i j k => f k i j⟩)
    else if d2 = 1 ∨ d2 = 3 then
      ("HWC", some ⟨1, d0, d1, d2, fun _ i j k => f i j k⟩)
    else
      ("BHW", some ⟨d0, d1, d2, 1, fun bb i j _ => f bb i j⟩)
  | .r4 d0 d1 d2 d3 f =>
    if d1 = 1 ∨ d1 = 3 then
      ("BCHW", some ⟨d0, d2, d3, d1, fun bb i j k => f bb k i j⟩)
    else if d3 = 1 ∨ d3 = 3 then
      ("BHWC", some ⟨d0, d1, d2, d3, fun bb i j k => f bb i j k⟩)
    else
      ("", none)

/-- All elements of a rank-4 array, row-major. -/
def entries (a : Arr4Q) : List ℚ :=
  (List.range a.b).flatMap fun bb =>
    (List.range a.h).flatMap fun i =>
      (List.range a.w).flatMap fun j =>
        (List.range a.c).map fun k => a.data bb i j k

/-- `x.min()`: `none` on an empty array (numpy raises `ValueError`). -/
def amin (l : List ℚ) : Option ℚ :=
  match l with
  | [] => none
  | a :: t => some (t.foldl min a)

/-- `x.max()`: `none` on an empty array (numpy raises `ValueError`). -/
def amax (l : List ℚ) : Option ℚ :=
  match l with
  | [] => none
  | a :: t => some (t.foldl max a)

/-- `astype(np.uint8)` on the nonnegative in-range values produced by the
range branches: truncation to integer. -/
def u8trunc (q : ℚ) : Nat := (Rat.floor q).toNat

/-- Range-inference stage of `format_img` (lines 70-81 of tensorcat.py):
returns the `range_guess` label and the uint8 array. -/
def range_stage (a : Arr4Q) : String × Except FmtErr Arr4N :=
  match amin (entries a), amax (entries a) with
  | some mn, some mx =>
    if 0 ≤ mn ∧ mx ≤ 1 then
      ("0-1", .ok ⟨a.b, a.h, a.w, a.c, fun bb i j k => u8trunc (a.data bb i j k * 255)⟩)
    else if 0 ≤ mn ∧ mx ≤ 255 then
      ("0-255", .ok ⟨a.b, a.h, a.w, a.c, fun bb i j k => u8trunc (a.data bb i j k)⟩)
    else if mx = mn then
      ("Out of Range", .error .divByZero)
    else
      ("Out of Range", .ok ⟨a.b, a.h, a.w, a.c,
        fun bb i j k => u8trunc ((a.data bb i j k - mn) / (mx - mn) * 255)⟩)
  | _, _ => ("", .error .emptyErr)

/-- Force-RGB stage of `format_img` (lines 83-87 of tensorcat.py):
broadcast a single channel to 3, drop the 4th channel of 4. -/
def channel_stage (a : Arr4N) : Arr4N :=
  if a.c = 1 then ⟨a.b, a.h, a.w, 3, fun bb i j _ => a.data bb i j 0⟩
  else if a.c = 4 then ⟨a.b, a.h, a.w, 3, fun bb i j k => a.data bb i j k⟩
  else a

/-- Embedding of `format_img(x, verbose)`: the returned array (or error)
together with the lines printed when `verbose` is set. -/
def format_img_run (x : RawTensor) (verbose : Bool) : Except FmtErr Arr4N × List String :=
  match shape_stage x with
  | (_, none) => (.error .shapeErr, [])
  | (fmtG, some a) =>
    match range_stage a with
    | (_, .error e) => (.error e, [])
    | (rngG, .ok a2) =>
      (.ok (channel_stage a2),
        if verbose then ["format: " ++ fmtG, "range: " ++ rngG] else [])

/-- `format_img` proper: the array returned to the caller. -/
def format_img (x : RawTensor) : Except FmtErr Arr4N := (format_img_run x false).1

/-- The rank-4 inputs whose axis 1 and last axis both fall outside
`{1,3}` (no channel evidence). -/
def isShapeErrInput : RawTensor → Prop := fun x =>
  match x with
  | .r4 _ d1 _ d3 _ => ¬(d1 = 1 ∨ d1 = 3) ∧ ¬(d3 = 1 ∨ d3 = 3)
  | _ => False

/-! ### Canonical-output theorem (C4) -/

/-- All axis sizes of the raw array are positive (numpy's `min`/`max`
raise `ValueError` on empty arrays, so `format_img` needs this). -/
def dimsPosB : RawTensor → Bool
  | .r2 d0 d1 _ => d0 != 0 && d1 != 0
  | .r3 d0 d1 d2 _ => d0 != 0 && d1 != 0 && d2 != 0
  | .r4 d0 d1 d2 d3 _ => d0 != 0 && d1 != 0 && d2 != 0 && d3 != 0

/-- The axis sizes give channel evidence: always for rank 2 and 3, and
for rank 4 when axis 1 or the last axis is in `{1,3}`. -/
def channelEvidenceB : RawTensor → Bool
  | .r2 _ _ _ => true
  | .r3 _ _ _ _ => true
  | .r4 _ d1 _ d3 _ => (d1 == 1 || d1 == 3) || (d3 == 1 || d3 == 3)

/-- The input does not reach the out-of-range branch with
`max == min` (the degenerate case where the source divides by zero). -/
def nondegenerateB (x : RawTensor) : Bool :=
  match (shape_stage x).2 with
  | none => true
  | some a =>
    match amin (entries a), amax (entries a) with
    | some mn, some mx =>
      (decide (0 ≤ mn) && decide (mx ≤ 1)) || (decide (0 ≤ mn) && decide (mx ≤ 255))
        || (mn != mx)
    | _, _ => true

/-! ## Tiler (`tile_img` in `src/tensorcat/tensorcat.py`)

The grid canvas is a total function `y → x → channel → value`, built as
the loop does: start from a canvas filled with `pad_value`, then place
image `k` (`k` running row-major over the `nrow*ncol` cells, skipping
once `k ≥ b`, as the loop's `break` does) into the cell interior at
row `k / ncol`, column `k % ncol`. -/

/-- The tiled grid image: height, width and pixel data. -/
structure TiledImg where
  H : Nat
  W : Nat
  data : Nat → Nat → Nat → Nat

/-- `grid[y0:y0+hh, x0:x0+ww] = img`: overwrite a rectangle. -/
def place (g : Nat → Nat → Nat → Nat) (img : Nat → Nat → Nat → Nat)
    (y0 x0 hh ww : Nat) : Nat → Nat → Nat → Nat :=
  fun y xx ch =>
    if y0 ≤ y ∧ y < y0 + hh ∧ x0 ≤ xx ∧ xx < x0 + ww then img (y - y0) (xx - x0) ch
    else g y xx ch

/-- One iteration of the placement loop: place image `k` unless `k ≥ b`. -/
def tileStep (b h w nc hp wp p : Nat) (x : Nat → Nat → Nat → Nat → Nat)
    (g : Nat → Nat → Nat → Nat) (k : Nat) : Nat → Nat → Nat → Nat :=
  if k < b then place g (x k) (k / nc * hp + p) (k % nc * wp + p) h w else g

/-- The placement loop over the first `m` cells, starting from a canvas
filled with `pv`. -/
def tileFold (b h w nc hp wp p pv : Nat) (x : Nat → Nat → Nat → Nat → Nat)
    (m : Nat) : Nat → Nat → Nat → Nat :=
  (List.range m).foldl (tileStep b h w nc hp wp p x) (fun _ _ _ => pv)

/-- Embedding of `tile_img(x, nrow, ncol, padding, pad_value)` from
`src/tensorcat/tensorcat.py` for a canonical `[b,h,w,c]` batch given by
its dims and data. -/
def tile_img (b h w : Nat) (x : Nat → Nat → Nat → Nat → Nat)
    (nrow ncol padding pad_value : Nat) : TiledImg :=
  let rc := get_grid_size b h w nrow ncol
  ⟨(h + padding) * rc.1 + padding, (w + padding) * rc.2 + padding,
    tileFold b h w rc.2 (h + padding) (w + padding) padding pad_value x (rc.1 * rc.2)⟩

/-! ## Theorems -/

theorem ceilDiv_ge (b n : Nat) (hn : 1 ≤ n) : b ≤ n * ceilDiv b n := by
  unfold ceilDiv
  have h1 := Nat.div_add_mod (b + n - 1) n
  have h2 := Nat.mod_lt (b + n - 1) (show 0 < n by omega)
  omega

theorem ceilDiv_pos (b n : Nat) (hb : 1 ≤ b) (hn : 1 ≤ n) : 1 ≤ ceilDiv b n := by
  unfold ceilDiv
  have := Nat.le_div_iff_mul_le (k := n) (show 0 < n by omega) (x := 1) (y := b + n - 1)
  omega

theorem sqrtCeil_pos (q : ℚ) (hq : 0 < q) : 1 ≤ sqrtCeil q := by
  unfold sqrtCeil
  simp only []
  split
  · rename_i h
    by_contra hlt
    have h0 : Nat.sqrt (qceil q).toNat = 0 := by omega
    rw [h0] at h
    simp at h
    exact absurd h (not_le.mpr hq)
  · omega

theorem ceilDiv_mul_lt (b n : Nat) (hb : 1 ≤ b) (hn : 1 ≤ n) :
    n * (ceilDiv b n - 1) < b := by
  have h3 : ceilDiv b n * n ≤ b + n - 1 := Nat.div_mul_le_self (b + n - 1) n
  obtain ⟨q, hq⟩ : ∃ q, ceilDiv b n = q + 1 :=
    ⟨ceilDiv b n - 1, by have := ceilDiv_pos b n hb hn; omega⟩
  rw [hq] at h3 ⊢
  rw [add_mul, one_mul] at h3
  rw [Nat.add_sub_cancel, Nat.mul_comm]
  omega

/-- C7: `get_grid_size` returns `(rows, cols)` with `rows * cols ≥ batch`,
both at least 1; when `rows` is supplied (nonzero) `cols = ⌈batch/rows⌉`
(the least count whose grid fits the batch), and when only `cols` is
supplied `rows = ⌈batch/cols⌉`. -/
theorem get_grid_size_spec (b h w nrow ncol : Nat)
    (hb : 1 ≤ b) (hh : 1 ≤ h) (hw : 1 ≤ w) :
    b ≤ (get_grid_size b h w nrow ncol).1 * (get_grid_size b h w nrow ncol).2 ∧
    1 ≤ (get_grid_size b h w nrow ncol).1 ∧
    1 ≤ (get_grid_size b h w nrow ncol).2 ∧
    (nrow ≠ 0 →
      (get_grid_size b h w nrow ncol).1 = nrow ∧
      (get_grid_size b h w nrow ncol).2 = ceilDiv b nrow ∧
      b ≤ nrow * (get_grid_size b h w nrow ncol).2 ∧
      nrow * ((get_grid_size b h w nrow ncol).2 - 1) < b) ∧
    (nrow = 0 → ncol ≠ 0 →
      (get_grid_size b h w nrow ncol).2 = ncol ∧
      (get_grid_size b h w nrow ncol).1 = ceilDiv b ncol ∧
      b ≤ ncol * (get_grid_size b h w nrow ncol).1 ∧
      ncol * ((get_grid_size b h w nrow ncol).1 - 1) < b) := by
  by_cases hr : nrow = 0
  · by_cases hc : ncol = 0
    · have hq : 0 < (b : ℚ) / w * h := by
        have hb' : (0 : ℚ) < b := by exact_mod_cast hb
        have hh' : (0 : ℚ) < h := by exact_mod_cast hh
        have hw' : (0 : ℚ) < w := by exact_mod_cast hw
        positivity
      have hs := sqrtCeil_pos ((b : ℚ) / w * h) hq
      have heq : get_grid_size b h w nrow ncol
          = (ceilDiv b (sqrtCeil ((b : ℚ) / w * h)), sqrtCeil ((b : ℚ) / w * h)) := by
        unfold get_grid_size
        simp [hr, hc]
      rw [heq]
      have hge := ceilDiv_ge b (sqrtCeil ((b : ℚ) / w * h)) hs
      have hpos := ceilDiv_pos b (sqrtCeil ((b : ℚ) / w * h)) hb hs
      exact ⟨by simpa [Nat.mul_comm] using hge, hpos, hs,
        fun hn => absurd hr hn, fun _ hc2 => absurd hc hc2⟩
    · have hc' : 0 < ncol := Nat.pos_of_ne_zero hc
      have heq : get_grid_size b h w nrow ncol = (ceilDiv b ncol, ncol) := by
        unfold get_grid_size
        simp [hr, hc]
      rw [heq]
      have hge := ceilDiv_ge b ncol hc'
      have hpos := ceilDiv_pos b ncol hb hc'
      have hlt := ceilDiv_mul_lt b ncol hb hc'
      exact ⟨by simpa [Nat.mul_comm] using hge, hpos, hc',
        fun hn => absurd hr hn, fun _ _ => ⟨rfl, rfl, hge, hlt⟩⟩
  · have hr' : 0 < nrow := Nat.pos_of_ne_zero hr
    have heq : get_grid_size b h w nrow ncol = (nrow, ceilDiv b nrow) := by
      unfold get_grid_size
      simp [hr]
    rw [heq]
    have hge := ceilDiv_ge b nrow hr'
    have hpos := ceilDiv_pos b nrow hb hr'
    have hlt := ceilDiv_mul_lt b nrow hb hr'
    exact ⟨hge, hr', hpos, fun _ => ⟨rfl, rfl, hge, hlt⟩, fun h0 => absurd h0 hr⟩

/-- C7 witness: at batch 10, tiles 4×4, supplied rows 2, the grid is
`(2, 5)` with `cols = ⌈10/2⌉ = 5`. -/
theorem get_grid_size_spec_witness :
    (1 ≤ 10 ∧ 1 ≤ 4) ∧
    (10 ≤ (get_grid_size 10 4 4 2 0).1 * (get_grid_size 10 4 4 2 0).2 ∧
      1 ≤ (get_grid_size 10 4 4 2 0).1 ∧
      1 ≤ (get_grid_size 10 4 4 2 0).2 ∧
      ((2 : Nat) ≠ 0 →
        (get_grid_size 10 4 4 2 0).1 = 2 ∧
        (get_grid_size 10 4 4 2 0).2 = ceilDiv 10 2 ∧
        10 ≤ 2 * (get_grid_size 10 4 4 2 0).2 ∧
        2 * ((get_grid_size 10 4 4 2 0).2 - 1) < 10) ∧
      ((2 : Nat) = 0 → (0 : Nat) ≠ 0 →
        (get_grid_size 10 4 4 2 0).2 = 0 ∧
        (get_grid_size 10 4 4 2 0).1 = ceilDiv 10 0 ∧
        10 ≤ 0 * (get_grid_size 10 4 4 2 0).1 ∧
        0 * ((get_grid_size 10 4 4 2 0).1 - 1) < 10)) ∧
    (get_grid_size 10 4 4 2 0).2 = 5 :=
  ⟨⟨by decide, by decide⟩,
    get_grid_size_spec 10 4 4 2 0 (by decide) (by decide) (by decide),
    by decide⟩

/-- C10: when both `nrow` and `ncol` are supplied nonzero, `get_grid_size`
ignores `ncol`: the result equals the call with only `nrow` supplied, the
returned column count is recomputed as `⌈batch/rows⌉`, and the grid still
covers the batch. -/
theorem get_grid_size_ignores_ncol (b h w nrow ncol : Nat)
    (hb : 1 ≤ b) (hr : nrow ≠ 0) (hc : ncol ≠ 0) :
    get_grid_size b h w nrow ncol = get_grid_size b h w nrow 0 ∧
    (get_grid_size b h w nrow ncol).2 = ceilDiv b nrow ∧
    b ≤ (get_grid_size b h w nrow ncol).1 * (get_grid_size b h w nrow ncol).2 := by
  have heq : get_grid_size b h w nrow ncol = (nrow, ceilDiv b nrow) := by
    unfold get_grid_size
    simp [hr]
  have heq0 : get_grid_size b h w nrow 0 = (nrow, ceilDiv b nrow) := by
    unfold get_grid_size
    simp [hr]
  rw [heq, heq0]
  exact ⟨rfl, rfl, ceilDiv_ge b nrow (Nat.pos_of_ne_zero hr)⟩

/-- C10 witness: batch 10, rows 2, cols 7 supplied: the supplied cols is
ignored and the result is the same as with cols unset, namely `(2, 5)`. -/
theorem get_grid_size_ignores_ncol_witness :
    (1 ≤ 10 ∧ (2 : Nat) ≠ 0 ∧ (7 : Nat) ≠ 0) ∧
    (get_grid_size 10 4 4 2 7 = get_grid_size 10 4 4 2 0 ∧
      (get_grid_size 10 4 4 2 7).2 = ceilDiv 10 2 ∧
      10 ≤ (get_grid_size 10 4 4 2 7).1 * (get_grid_size 10 4 4 2 7).2) :=
  ⟨⟨by decide, by decide, by decide⟩,
    get_grid_size_ignores_ncol 10 4 4 2 7 (by decide) (by decide) (by decide)⟩

theorem img2str_eq_body (term imgB64 : String) (imgSize : Nat) (inline : Bool)
    (name width height : String) (par : Bool) (fileType : String) :
    img2str term imgB64 imgSize inline name width height par fileType
      = oscOf term ++ specEncodeBody imgB64 imgSize inline name width height par fileType
          ++ stOf term := by
  unfold img2str specEncodeBody oscOf stOf
  by_cases ht : (pyStartsWith term "tmux" || pyStartsWith term "screen") = true <;>
    by_cases hn : name = "" <;> by_cases hw : width = "" <;> by_cases hh : height = "" <;>
      by_cases hf : fileType = "" <;>
        (apply String.ext
         simp [ht, hn, hw, hh, hf, String.join_eq, String.data_append])

/-- C8: the encoder emits the parameters in the fixed order
`1337;File=inline=<0|1>;size=<size>`, then `name` (base64-encoded),
`width`, `height` each only when non-empty, then always
`preserveAspectRatio=<0|1>`, then `type` only when non-empty, followed by
`:` and the base64 payload; empty `name`/`width`/`height` leave those keys
entirely absent.  This is stated as a refinement: `img2str` equals the
spec-worded `specEncodeBody` inside the framing for all arguments. -/
theorem img2str_param_order (term imgB64 : String) (imgSize : Nat) (inline : Bool)
    (name width height : String) (par : Bool) (fileType : String) :
    img2str term imgB64 imgSize inline name width height par fileType
      = oscOf term ++ specEncodeBody imgB64 imgSize inline name width height par fileType
          ++ stOf term :=
  img2str_eq_body term imgB64 imgSize inline name width height par fileType

/-- C2 (amended): when `TERM` begins with `tmux` or `screen` the output is
the tmux passthrough framing `ESC Ptmux;ESC ESC ]` around the same body
the plain framing carries, terminated by `BEL` followed by `ESC \` (the
`ESC \` is appended after the plain `BEL` terminator, not substituted for
it); otherwise the output starts with `ESC ]` and ends with `BEL`. -/
theorem img2str_framing (term imgB64 : String) (imgSize : Nat) (inline : Bool)
    (name width height : String) (par : Bool) (fileType : String) :
    ((pyStartsWith term "tmux" || pyStartsWith term "screen") = true →
      ∃ body : String,
        img2str term imgB64 imgSize inline name width height par fileType
          = "\x1bPtmux;\x1b\x1b]" ++ body ++ "\x07\x1b\\" ∧
        img2str "xterm" imgB64 imgSize inline name width height par fileType
          = "\x1b]" ++ body ++ "\x07") ∧
    ((pyStartsWith term "tmux" || pyStartsWith term "screen") = false →
      ∃ body : String,
        img2str term imgB64 imgSize inline name width height par fileType
          = "\x1b]" ++ body ++ "\x07") := by
  constructor
  · intro ht
    refine ⟨specEncodeBody imgB64 imgSize inline name width height par fileType, ?_, ?_⟩
    · rw [img2str_eq_body]
      unfold oscOf stOf
      rw [if_pos ht, if_pos ht]
    · rw [img2str_eq_body]
      unfold oscOf stOf
      rw [if_neg (by decide), if_neg (by decide)]
  · intro ht
    refine ⟨specEncodeBody imgB64 imgSize inline name width height par fileType, ?_⟩
    rw [img2str_eq_body]
    unfold oscOf stOf
    rw [if_neg (by simp [ht]), if_neg (by simp [ht])]

/-- C2 witness: with `TERM=tmux-256color` the output is the passthrough
framing around the same body as the plain `TERM=xterm` output. -/
theorem img2str_framing_witness :
    ((pyStartsWith "tmux-256color" "tmux" || pyStartsWith "tmux-256color" "screen") = true →
      ∃ body : String,
        img2str "tmux-256color" "QUJD" 3 true "" "" "" true ""
          = "\x1bPtmux;\x1b\x1b]" ++ body ++ "\x07\x1b\\" ∧
        img2str "xterm" "QUJD" 3 true "" "" "" true ""
          = "\x1b]" ++ body ++ "\x07") ∧
    ((pyStartsWith "tmux-256color" "tmux" || pyStartsWith "tmux-256color" "screen") = false →
      ∃ body : String,
        img2str "tmux-256color" "QUJD" 3 true "" "" "" true ""
          = "\x1b]" ++ body ++ "\x07") :=
  img2str_framing "tmux-256color" "QUJD" 3 true "" "" "" true ""

/-- C2 counterexample: the claim that `ESC \` *substitutes* for the plain
framing's `BEL` terminator is false: there is no common body such that
the tmux output is `ESC Ptmux;ESC ESC ]` body `ESC \` while the plain
output is `ESC ]` body `BEL` — the code keeps the `BEL` and appends
`ESC \` after it. -/
theorem img2str_substitution_cex :
    ¬ ∃ body : String,
        img2str "tmux-256color" "QUJD" 4 true "" "" "" true ""
          = "\x1bPtmux;\x1b\x1b]" ++ body ++ "\x1b\\" ∧
        img2str "xterm" "QUJD" 4 true "" "" "" true ""
          = "\x1b]" ++ body ++ "\x07" := by
  rintro ⟨body, h1, h2⟩
  have h1l := congrArg String.length h1
  have h2l := congrArg String.length h2
  simp only [String.length_append] at h1l h2l
  have e1 : (img2str "tmux-256color" "QUJD" 4 true "" "" "" true "").length = 65 := by decide
  have e2 : (img2str "xterm" "QUJD" 4 true "" "" "" true "").length = 55 := by decide
  have p1 : ("\x1bPtmux;\x1b\x1b]" : String).length = 10 := by decide
  have p2 : ("\x1b\\" : String).length = 2 := by decide
  have p3 : ("\x1b]" : String).length = 2 := by decide
  have p4 : ("\x07" : String).length = 1 := by decide
  rw [e1, p1, p2] at h1l
  rw [e2, p3, p4] at h2l
  omega

/-- C1: a constant array with a negative value reaches the out-of-range
branch with `max == min`, and there `format_img` divides by zero:
`(x - x.min()) / (x.max() - x.min())` has a zero denominator (numpy emits
a `0/0` NaN whose uint8 cast is undefined, not the all-zero fallback the
spec requires). -/
theorem format_img_degenerate_div :
    format_img (.r2 2 2 (fun _ _ => -5)) = .error .divByZero := rfl

/-- C9: the returned value of `format_img` is independent of the
`verbose` flag; `verbose` only selects whether the inferred layout and
range labels are printed. -/
theorem format_img_verbose_noninterference (x : RawTensor) :
    (format_img_run x true).1 = (format_img_run x false).1 := by
  unfold format_img_run
  rcases hs : shape_stage x with ⟨g, o⟩
  cases o with
  | none => simp [hs]
  | some a =>
    rcases hr : range_stage a with ⟨g2, r⟩
    cases r <;> simp [hs, hr]

theorem range_stage_not_shape (a : Arr4Q) :
    (range_stage a).2 ≠ Except.error FmtErr.shapeErr := by
  unfold range_stage
  rcases h1 : amin (entries a) with _ | mn <;> rcases h2 : amax (entries a) with _ | mx <;>
      simp only [h1, h2]
  · simp
  · simp
  · simp
  · split_ifs <;> simp

theorem format_img_not_shape_of_some (x : RawTensor) (g : String) (a : Arr4Q)
    (hs : shape_stage x = (g, some a)) :
    format_img x ≠ Except.error FmtErr.shapeErr := by
  unfold format_img format_img_run
  rw [hs]
  rcases hr : range_stage a with ⟨g2, r⟩
  cases r with
  | error e =>
    have hne := range_stage_not_shape a
    rw [hr] at hne
    simp only [hr]
    simpa using hne
  | ok a2 => simp [hr]

/-- C5: `format_img` raises the shape-inference `ValueError` exactly on
rank-4 inputs whose axis 1 and last axis are both outside `{1,3}`; no
rank-2/3 input and no rank-4 input with channel evidence produces it. -/
theorem format_img_shape_err_iff (x : RawTensor) :
    format_img x = Except.error FmtErr.shapeErr ↔ isShapeErrInput x := by
  cases x with
  | r2 d0 d1 f =>
    have hne := format_img_not_shape_of_some (.r2 d0 d1 f) "HW"
      ⟨1, d0, d1, 1, fun _ i j _ => f i j⟩ rfl
    simp [isShapeErrInput, hne]
  | r3 d0 d1 d2 f =>
    obtain ⟨g, a, hs⟩ : ∃ g a, shape_stage (.r3 d0 d1 d2 f) = (g, some a) := by
      simp only [shape_stage]
      split_ifs <;> exact ⟨_, _, rfl⟩
    have hne := format_img_not_shape_of_some _ g a hs
    simp [isShapeErrInput, hne]
  | r4 d0 d1 d2 d3 f =>
    by_cases h1 : d1 = 1 ∨ d1 = 3
    · have hs : shape_stage (.r4 d0 d1 d2 d3 f)
          = ("BCHW", some ⟨d0, d2, d3, d1, fun bb i j k => f bb k i j⟩) := by
        simp only [shape_stage]
        rw [if_pos h1]
      have hne := format_img_not_shape_of_some _ _ _ hs
      simp [isShapeErrInput, hne, h1]
    · by_cases h3 : d3 = 1 ∨ d3 = 3
      · have hs : shape_stage (.r4 d0 d1 d2 d3 f)
            = ("BHWC", some ⟨d0, d1, d2, d3, fun bb i j k => f bb i j k⟩) := by
          simp only [shape_stage]
          rw [if_neg h1, if_pos h3]
        have hne := format_img_not_shape_of_some _ _ _ hs
        simp [isShapeErrInput, hne, h1, h3]
      · have hs : shape_stage (.r4 d0 d1 d2 d3 f) = ("", none) := by
          simp only [shape_stage]
          rw [if_neg h1, if_neg h3]
        have herr : format_img (.r4 d0 d1 d2 d3 f) = Except.error FmtErr.shapeErr := by
          unfold format_img format_img_run
          rw [hs]
        simp [isShapeErrInput, herr, h1, h3]

theorem foldl_min_le_init (t : List ℚ) (a : ℚ) : t.foldl min a ≤ a := by
  induction t generalizing a with
  | nil => simp
  | cons x xs ih =>
    simp only [List.foldl_cons]
    exact le_trans (ih (min a x)) (min_le_left a x)

theorem foldl_min_le_mem (t : List ℚ) (a q : ℚ) (hq : q ∈ t) : t.foldl min a ≤ q := by
  induction t generalizing a with
  | nil => cases hq
  | cons x xs ih =>
    simp only [List.foldl_cons]
    rcases List.mem_cons.mp hq with h | h
    · subst h
      exact le_trans (foldl_min_le_init xs (min a q)) (min_le_right a q)
    · exact ih (min a x) h

theorem foldl_max_ge_init (t : List ℚ) (a : ℚ) : a ≤ t.foldl max a := by
  induction t generalizing a with
  | nil => simp
  | cons x xs ih =>
    simp only [List.foldl_cons]
    exact le_trans (le_max_left a x) (ih (max a x))

theorem foldl_max_ge_mem (t : List ℚ) (a q : ℚ) (hq : q ∈ t) : q ≤ t.foldl max a := by
  induction t generalizing a with
  | nil => cases hq
  | cons x xs ih =>
    simp only [List.foldl_cons]
    rcases List.mem_cons.mp hq with h | h
    · subst h
      exact le_trans (le_max_right a q) (foldl_max_ge_init xs (max a q))
    · exact ih (max a x) h

theorem amin_le (l : List ℚ) (mn q : ℚ) (hm : amin l = some mn) (hq : q ∈ l) : mn ≤ q := by
  cases l with
  | nil => cases hq
  | cons a t =>
    simp only [amin, Option.some.injEq] at hm
    subst hm
    rcases List.mem_cons.mp hq with h | h
    · subst h
      exact foldl_min_le_init t q
    · exact foldl_min_le_mem t a q h

theorem amax_ge (l : List ℚ) (mx q : ℚ) (hm : amax l = some mx) (hq : q ∈ l) : q ≤ mx := by
  cases l with
  | nil => cases hq
  | cons a t =>
    simp only [amax, Option.some.injEq] at hm
    subst hm
    rcases List.mem_cons.mp hq with h | h
    · subst h
      exact foldl_max_ge_init t q
    · exact foldl_max_ge_mem t a q h

theorem foldl_min_mem (t : List ℚ) (a : ℚ) : t.foldl min a ∈ a :: t := by
  induction t generalizing a with
  | nil => simp
  | cons x xs ih =>
    simp only [List.foldl_cons]
    have h := ih (min a x)
    rcases List.mem_cons.mp h with h1 | h1
    · rw [h1]
      rcases min_choice a x with h2 | h2 <;> rw [h2] <;> simp
    · simp [h1]

theorem amin_mem (l : List ℚ) (mn : ℚ) (hm : amin l = some mn) : mn ∈ l := by
  cases l with
  | nil => cases hm
  | cons a t =>
    simp only [amin, Option.some.injEq] at hm
    subst hm
    exact foldl_min_mem t a

theorem mem_entries (a : Arr4Q) (bb i j k : Nat)
    (hb : bb < a.b) (hi : i < a.h) (hj : j < a.w) (hk : k < a.c) :
    a.data bb i j k ∈ entries a := by
  unfold entries
  refine List.mem_flatMap.mpr ⟨bb, List.mem_range.mpr hb, ?_⟩
  refine List.mem_flatMap.mpr ⟨i, List.mem_range.mpr hi, ?_⟩
  refine List.mem_flatMap.mpr ⟨j, List.mem_range.mpr hj, ?_⟩
  exact List.mem_map.mpr ⟨k, List.mem_range.mpr hk, rfl⟩

theorem entries_ne_nil (a : Arr4Q)
    (hb : 0 < a.b) (hh : 0 < a.h) (hw : 0 < a.w) (hc : 0 < a.c) :
    entries a ≠ [] := by
  intro hnil
  have hm := mem_entries a 0 0 0 0 hb hh hw hc
  rw [hnil] at hm
  cases hm

theorem u8trunc_le (q : ℚ) (hq : q ≤ 255) : u8trunc q ≤ 255 := by
  unfold u8trunc
  by_contra hcon
  push_neg at hcon
  have h2 : (256 : ℤ) ≤ Rat.floor q := by omega
  have h3 : ((256 : ℤ) : ℚ) ≤ q := Rat.le_floor.mp h2
  norm_num at h3
  linarith

theorem range_stage_ok (a : Arr4Q) (mn mx : ℚ)
    (hmn : amin (entries a) = some mn) (hmx : amax (entries a) = some mx)
    (hnd : (0 ≤ mn ∧ mx ≤ 1) ∨ (0 ≤ mn ∧ mx ≤ 255) ∨ mn ≠ mx) :
    ∃ a2 : Arr4N, (range_stage a).2 = .ok a2 ∧
      a2.b = a.b ∧ a2.h = a.h ∧ a2.w = a.w ∧ a2.c = a.c ∧
      ∀ bb i j k, bb < a.b → i < a.h → j < a.w → k < a.c → a2.data bb i j k ≤ 255 := by
  have hmem : ∀ bb i j k, bb < a.b → i < a.h → j < a.w → k < a.c →
      mn ≤ a.data bb i j k ∧ a.data bb i j k ≤ mx := by
    intro bb i j k h1 h2 h3 h4
    exact ⟨amin_le _ _ _ hmn (mem_entries a bb i j k h1 h2 h3 h4),
      amax_ge _ _ _ hmx (mem_entries a bb i j k h1 h2 h3 h4)⟩
  have hmnmx : mn ≤ mx := amax_ge _ _ _ hmx (amin_mem _ _ hmn)
  unfold range_stage
  rw [hmn, hmx]
  dsimp only
  split_ifs with h1 h2 h3
  · refine ⟨_, rfl, rfl, rfl, rfl, rfl, ?_⟩
    intro bb i j k hb hi hj hk
    apply u8trunc_le
    have hv := (hmem bb i j k hb hi hj hk).2
    calc a.data bb i j k * 255 ≤ 1 * 255 := by
          apply mul_le_mul_of_nonneg_right (le_trans hv h1.2)
          norm_num
      _ = 255 := by norm_num
  · refine ⟨_, rfl, rfl, rfl, rfl, rfl, ?_⟩
    intro bb i j k hb hi hj hk
    exact u8trunc_le _ (le_trans (hmem bb i j k hb hi hj hk).2 h2.2)
  · exfalso
    rcases hnd with h | h | h
    · exact h1 h
    · exact h2 h
    · exact h (le_antisymm hmnmx (le_of_eq h3))
  · refine ⟨_, rfl, rfl, rfl, rfl, rfl, ?_⟩
    intro bb i j k hb hi hj hk
    apply u8trunc_le
    have hv1 := (hmem bb i j k hb hi hj hk).1
    have hv2 := (hmem bb i j k hb hi hj hk).2
    have hlt : mn < mx := lt_of_le_of_ne hmnmx (fun he => h3 he.symm)
    have hratio : (a.data bb i j k - mn) / (mx - mn) ≤ 1 := by
      rw [div_le_one (by linarith)]
      linarith
    calc (a.data bb i j k - mn) / (mx - mn) * 255 ≤ 1 * 255 := by
          apply mul_le_mul_of_nonneg_right hratio
          norm_num
      _ = 255 := by norm_num

theorem channel_stage_spec (a : Arr4N) (hc : a.c = 1 ∨ a.c = 3)
    (hv : ∀ bb i j k, bb < a.b → i < a.h → j < a.w → k < a.c → a.data bb i j k ≤ 255) :
    (channel_stage a).b = a.b ∧ (channel_stage a).h = a.h ∧ (channel_stage a).w = a.w ∧
    (channel_stage a).c = 3 ∧
    ∀ bb i j k, bb < a.b → i < a.h → j < a.w → k < 3 →
      (channel_stage a).data bb i j k ≤ 255 := by
  unfold channel_stage
  rcases hc with h1 | h3
  · rw [if_pos h1]
    exact ⟨rfl, rfl, rfl, rfl, fun bb i j k hb hi hj _ => hv bb i j 0 hb hi hj (by omega)⟩
  · rw [if_neg (by omega), if_neg (by omega)]
    exact ⟨rfl, rfl, rfl, h3, fun bb i j k hb hi hj hk => hv bb i j k hb hi hj (by omega)⟩

theorem format_ok_of_shaped (x : RawTensor) (g : String) (a : Arr4Q)
    (hs : shape_stage x = (g, some a))
    (hb : 0 < a.b) (hh : 0 < a.h) (hw : 0 < a.w) (hcpos : 0 < a.c)
    (hc13 : a.c = 1 ∨ a.c = 3)
    (hnd : nondegenerateB x = true) :
    ∃ r : Arr4N, format_img x = .ok r ∧ 1 ≤ r.b ∧ r.c = 3 ∧
      ∀ bb i j k, bb < r.b → i < r.h → j < r.w → k < 3 → r.data bb i j k ≤ 255 := by
  have hne := entries_ne_nil a hb hh hw hcpos
  obtain ⟨mn, hmn⟩ : ∃ mn, amin (entries a) = some mn := by
    cases hE : entries a with
    | nil => exact absurd hE hne
    | cons y t => exact ⟨t.foldl min y, rfl⟩
  obtain ⟨mx, hmx⟩ : ∃ mx, amax (entries a) = some mx := by
    cases hE : entries a with
    | nil => exact absurd hE hne
    | cons y t => exact ⟨t.foldl max y, rfl⟩
  have hnd' : (0 ≤ mn ∧ mx ≤ 1) ∨ (0 ≤ mn ∧ mx ≤ 255) ∨ mn ≠ mx := by
    unfold nondegenerateB at hnd
    rw [hs] at hnd
    dsimp only at hnd
    rw [hmn, hmx] at hnd
    dsimp only at hnd
    simp only [Bool.or_eq_true, Bool.and_eq_true, decide_eq_true_eq, bne_iff_ne,
      ne_eq] at hnd
    tauto
  obtain ⟨a2, hr, hb2, hh2, hw2, hc2, hv2⟩ := range_stage_ok a mn mx hmn hmx hnd'
  have hcc : a2.c = 1 ∨ a2.c = 3 := by rw [hc2]; exact hc13
  have hv2' : ∀ bb i j k, bb < a2.b → i < a2.h → j < a2.w → k < a2.c →
      a2.data bb i j k ≤ 255 := by
    intro bb i j k h1 h2 h3 h4
    rw [hb2] at h1
    rw [hh2] at h2
    rw [hw2] at h3
    rw [hc2] at h4
    exact hv2 bb i j k h1 h2 h3 h4
  obtain ⟨e1, e2, e3, e4, e5⟩ := channel_stage_spec a2 hcc hv2'
  refine ⟨channel_stage a2, ?_, ?_, e4, ?_⟩
  · unfold format_img format_img_run
    rw [hs]
    rcases hq : range_stage a with ⟨g2, r2⟩
    rw [hq] at hr
    dsimp only at hr
    subst hr
    simp [hq]
  · rw [e1, hb2]
    exact hb
  · intro bb i j k hbb hii hjj hkk
    rw [e1] at hbb
    rw [e2] at hii
    rw [e3] at hjj
    exact e5 bb i j k hbb hii hjj hkk

/-- C4 (amended): every rank-2/3/4 raw array with positive axis sizes and
channel evidence that does not hit the degenerate `max == min`
out-of-range case normalizes to a `[B,H,W,3]` uint8 array with `B ≥ 1`
and every element in `[0,255]`. -/
theorem format_img_canonical (x : RawTensor)
    (hd : dimsPosB x = true) (he : channelEvidenceB x = true)
    (hn : nondegenerateB x = true) :
    ∃ r : Arr4N, format_img x = .ok r ∧ 1 ≤ r.b ∧ r.c = 3 ∧
      ∀ bb i j k, bb < r.b → i < r.h → j < r.w → k < 3 → r.data bb i j k ≤ 255 := by
  cases x with
  | r2 d0 d1 f =>
    simp only [dimsPosB, Bool.and_eq_true, bne_iff_ne, ne_eq] at hd
    exact format_ok_of_shaped (.r2 d0 d1 f) "HW" ⟨1, d0, d1, 1, fun _ i j _ => f i j⟩
      rfl (by norm_num) (by dsimp only; omega) (by dsimp only; omega) (by norm_num)
      (Or.inl rfl) hn
  | r3 d0 d1 d2 f =>
    simp only [dimsPosB, Bool.and_eq_true, bne_iff_ne, ne_eq] at hd
    by_cases h0 : d0 = 1 ∨ d0 = 3
    · have hs : shape_stage (.r3 d0 d1 d2 f)
          = ("CHW", some ⟨1, d1, d2, d0, fun _ i j k => f k i j⟩) := by
        simp only [shape_stage]
        rw [if_pos h0]
      exact format_ok_of_shaped _ _ _ hs (by norm_num) (by dsimp only; omega)
        (by dsimp only; omega) (by dsimp only; omega) h0 hn
    · by_cases h2 : d2 = 1 ∨ d2 = 3
      · have hs : shape_stage (.r3 d0 d1 d2 f)
            = ("HWC", some ⟨1, d0, d1, d2, fun _ i j k => f i j k⟩) := by
          simp only [shape_stage]
          rw [if_neg h0, if_pos h2]
        exact format_ok_of_shaped _ _ _ hs (by norm_num) (by dsimp only; omega)
          (by dsimp only; omega) (by dsimp only; omega) h2 hn
      · have hs : shape_stage (.r3 d0 d1 d2 f)
            = ("BHW", some ⟨d0, d1, d2, 1, fun bb i j _ => f bb i j⟩) := by
          simp only [shape_stage]
          rw [if_neg h0, if_neg h2]
        exact format_ok_of_shaped _ _ _ hs (by dsimp only; omega) (by dsimp only; omega)
          (by dsimp only; omega) (by norm_num) (Or.inl rfl) hn
  | r4 d0 d1 d2 d3 f =>
    simp only [dimsPosB, Bool.and_eq_true, bne_iff_ne, ne_eq] at hd
    by_cases h1 : d1 = 1 ∨ d1 = 3
    · have hs : shape_stage (.r4 d0 d1 d2 d3 f)
          = ("BCHW", some ⟨d0, d2, d3, d1, fun bb i j k => f bb k i j⟩) := by
        simp only [shape_stage]
        rw [if_pos h1]
      exact format_ok_of_shaped _ _ _ hs (by dsimp only; omega) (by dsimp only; omega)
        (by dsimp only; omega) (by dsimp only; omega) h1 hn
    · have h3 : d3 = 1 ∨ d3 = 3 := by
        simp only [channelEvidenceB, Bool.or_eq_true, beq_iff_eq] at he
        rcases he with he | he
        · exact absurd he h1
        · exact he
      have hs : shape_stage (.r4 d0 d1 d2 d3 f)
          = ("BHWC", some ⟨d0, d1, d2, d3, fun bb i j k => f bb i j k⟩) := by
        simp only [shape_stage]
        rw [if_neg h1, if_pos h3]
      exact format_ok_of_shaped _ _ _ hs (by dsimp only; omega) (by dsimp only; omega)
        (by dsimp only; omega) (by dsimp only; omega) h3 hn

theorem foldl_max_mem (t : List ℚ) (a : ℚ) : t.foldl max a ∈ a :: t := by
  induction t generalizing a with
  | nil => simp
  | cons x xs ih =>
    simp only [List.foldl_cons]
    have h := ih (max a x)
    rcases List.mem_cons.mp h with h1 | h1
    · rw [h1]
      rcases max_choice a x with h2 | h2 <;> rw [h2] <;> simp
    · simp [h1]

theorem amax_mem (l : List ℚ) (mx : ℚ) (hm : amax l = some mx) : mx ∈ l := by
  cases l with
  | nil => cases hm
  | cons a t =>
    simp only [amax, Option.some.injEq] at hm
    subst hm
    exact foldl_max_mem t a

theorem entries_elem (a : Arr4Q) (q : ℚ) (hq : q ∈ entries a) :
    ∃ bb i j k, bb < a.b ∧ i < a.h ∧ j < a.w ∧ k < a.c ∧ q = a.data bb i j k := by
  unfold entries at hq
  obtain ⟨bb, hbb, hq⟩ := List.mem_flatMap.mp hq
  obtain ⟨i, hi, hq⟩ := List.mem_flatMap.mp hq
  obtain ⟨j, hj, hq⟩ := List.mem_flatMap.mp hq
  obtain ⟨k, hk, hq⟩ := List.mem_map.mp hq
  exact ⟨bb, i, j, k, List.mem_range.mp hbb, List.mem_range.mp hi,
    List.mem_range.mp hj, List.mem_range.mp hk, hq.symm⟩

theorem u8trunc_natCast (n : Nat) : u8trunc (n : ℚ) = n := by
  unfold u8trunc
  have h1 : (n : ℤ) ≤ Rat.floor (n : ℚ) := by
    apply Rat.le_floor.mpr
    push_cast
    exact le_refl _
  have h2 : Rat.floor ((n : ℚ)) < (n : ℤ) + 1 := by
    by_contra hcon
    push_neg at hcon
    have h3 : (((n : ℤ) + 1 : ℤ) : ℚ) ≤ (n : ℚ) := Rat.le_floor.mp hcon
    push_cast at h3
    linarith
  omega

/-- C4 witness: a 1×2 rank-2 array with values `{0, 37}` normalizes to an
all-defined `[1,1,2,3]` uint8 image. -/
theorem format_img_canonical_witness :
    (dimsPosB (.r2 1 2 (fun _ j => if j = 0 then (0 : ℚ) else 37)) = true ∧
      channelEvidenceB (.r2 1 2 (fun _ j => if j = 0 then (0 : ℚ) else 37)) = true ∧
      nondegenerateB (.r2 1 2 (fun _ j => if j = 0 then (0 : ℚ) else 37)) = true) ∧
    (∃ r : Arr4N,
      format_img (.r2 1 2 (fun _ j => if j = 0 then (0 : ℚ) else 37)) = .ok r ∧
      1 ≤ r.b ∧ r.c = 3 ∧
      ∀ bb i j k, bb < r.b → i < r.h → j < r.w → k < 3 → r.data bb i j k ≤ 255) :=
  ⟨⟨by decide, by decide, by decide⟩,
    format_img_canonical (.r2 1 2 (fun _ j => if j = 0 then (0 : ℚ) else 37))
      (by decide) (by decide) (by decide)⟩

set_option maxRecDepth 8192 in
/-- C3 counterexample: an already-canonical `[1,3,2,3]` uint8 RGB array
(values 2..27) is *not* returned unchanged: its height 3 makes axis 1
match the channel-first check, so `format_img` treats it as `BCHW` and
transposes it to `[1,2,3,3]` — the output height is 2, not 3. -/
theorem format_img_not_identity_cex :
    ¬ ∃ c : Arr4N,
        format_img (.r4 1 3 2 3 (fun _ i j k => ((i * 10 + j * 3 + k + 2 : Nat) : ℚ)))
          = .ok c ∧
        c.b = 1 ∧ c.h = 3 ∧ c.w = 2 ∧ c.c = 3 ∧
        (∀ bb i j k, bb < 1 → i < 3 → j < 2 → k < 3 →
          (c.data bb i j k : ℚ) = ((i * 10 + j * 3 + k + 2 : Nat) : ℚ)) := by
  rintro ⟨c, hok, _, hh3, _⟩
  have hproj : (format_img
      (.r4 1 3 2 3 (fun _ i j k => ((i * 10 + j * 3 + k + 2 : Nat) : ℚ)))).map
      (fun d => d.h) = .ok 2 := rfl
  rw [hok] at hproj
  simp [Except.map] at hproj
  omega

/-- C3 (amended): an already-canonical `[B,H,W,3]` array of integer
values in 0..255 is returned unchanged by `format_img` provided its
height is not 1 or 3 (otherwise the channel-first tie-break transposes
it) and some value is at least 2 (otherwise the 0-1 branch rescales). -/
theorem format_img_identity_on_canonical (b h w : Nat) (f : Nat → Nat → Nat → Nat → ℚ)
    (hb : 1 ≤ b) (hh : 1 ≤ h) (hw : 1 ≤ w)
    (hh1 : h ≠ 1) (hh3 : h ≠ 3)
    (hvals : ∀ bb i j k, bb < b → i < h → j < w → k < 3 →
      ∃ n : Nat, f bb i j k = (n : ℚ) ∧ n ≤ 255)
    (hbig : ∃ bb i j k, bb < b ∧ i < h ∧ j < w ∧ k < 3 ∧ 2 ≤ f bb i j k) :
    ∃ c : Arr4N, format_img (.r4 b h w 3 f) = .ok c ∧
      c.b = b ∧ c.h = h ∧ c.w = w ∧ c.c = 3 ∧
      ∀ bb i j k, bb < b → i < h → j < w → k < 3 →
        (c.data bb i j k : ℚ) = f bb i j k := by
  have hs : shape_stage (.r4 b h w 3 f)
      = ("BHWC", some ⟨b, h, w, 3, fun bb i j k => f bb i j k⟩) := by
    simp only [shape_stage]
    rw [if_neg (by omega)]
    norm_num
  have hne : entries ⟨b, h, w, 3, fun bb i j k => f bb i j k⟩ ≠ [] :=
    entries_ne_nil ⟨b, h, w, 3, fun bb i j k => f bb i j k⟩ hb hh hw (Nat.succ_pos 2)
  obtain ⟨mn, hmn⟩ :
      ∃ mn, amin (entries ⟨b, h, w, 3, fun bb i j k => f bb i j k⟩) = some mn := by
    cases hE : entries ⟨b, h, w, 3, fun bb i j k => f bb i j k⟩ with
    | nil => exact absurd hE hne
    | cons y t => exact ⟨t.foldl min y, rfl⟩
  obtain ⟨mx, hmx⟩ :
      ∃ mx, amax (entries ⟨b, h, w, 3, fun bb i j k => f bb i j k⟩) = some mx := by
    cases hE : entries ⟨b, h, w, 3, fun bb i j k => f bb i j k⟩ with
    | nil => exact absurd hE hne
    | cons y t => exact ⟨t.foldl max y, rfl⟩
  have hvals' : ∀ q ∈ entries ⟨b, h, w, 3, fun bb i j k => f bb i j k⟩,
      ∃ n : Nat, q = (n : ℚ) ∧ n ≤ 255 := by
    intro q hq
    obtain ⟨bb, i, j, k, h1, h2, h3, h4, he⟩ :=
      entries_elem ⟨b, h, w, 3, fun bb i j k => f bb i j k⟩ q hq
    obtain ⟨n, hn1, hn2⟩ := hvals bb i j k h1 h2 h3 h4
    exact ⟨n, by rw [he]; exact hn1, hn2⟩
  have hmn0 : 0 ≤ mn := by
    obtain ⟨n, hn1, _⟩ := hvals' mn (amin_mem _ _ hmn)
    rw [hn1]
    positivity
  have hmx255 : mx ≤ 255 := by
    obtain ⟨n, hn1, hn2⟩ := hvals' mx (amax_mem _ _ hmx)
    rw [hn1]
    exact_mod_cast hn2
  have hmx2 : 2 ≤ mx := by
    obtain ⟨bb, i, j, k, h1, h2, h3, h4, h5⟩ := hbig
    exact le_trans h5 (amax_ge _ _ _ hmx
      (mem_entries ⟨b, h, w, 3, fun bb i j k => f bb i j k⟩ bb i j k h1 h2 h3 h4))
  have hrange : range_stage ⟨b, h, w, 3, fun bb i j k => f bb i j k⟩
      = ("0-255", .ok ⟨b, h, w, 3, fun bb i j k => u8trunc (f bb i j k)⟩) := by
    unfold range_stage
    rw [hmn, hmx]
    dsimp only
    rw [if_neg (by rintro ⟨_, hcon⟩; linarith), if_pos ⟨hmn0, hmx255⟩]
  refine ⟨⟨b, h, w, 3, fun bb i j k => u8trunc (f bb i j k)⟩, ?_, rfl, rfl, rfl, rfl, ?_⟩
  · unfold format_img format_img_run
    rw [hs]
    dsimp only
    rw [hrange]
    dsimp only
    unfold channel_stage
    rw [if_neg (by norm_num), if_neg (by norm_num)]
  · intro bb i j k h1 h2 h3 h4
    obtain ⟨n, hn1, _⟩ := hvals bb i j k h1 h2 h3 h4
    dsimp only
    rw [hn1, u8trunc_natCast]

/-- C3 witness: a canonical `[1,2,1,3]` array with values `3,8,13,...` is
returned unchanged. -/
theorem format_img_identity_on_canonical_witness :
    (1 ≤ 1 ∧ 1 ≤ 2 ∧ (2 : Nat) ≠ 1 ∧ (2 : Nat) ≠ 3) ∧
    (∃ c : Arr4N,
      format_img (.r4 1 2 1 3 (fun _ _ _ k => ((k * 5 + 3 : Nat) : ℚ))) = .ok c ∧
      c.b = 1 ∧ c.h = 2 ∧ c.w = 1 ∧ c.c = 3 ∧
      ∀ bb i j k, bb < 1 → i < 2 → j < 1 → k < 3 →
        (c.data bb i j k : ℚ) = ((k * 5 + 3 : Nat) : ℚ)) :=
  ⟨⟨by decide, by decide, by decide, by decide⟩,
    format_img_identity_on_canonical 1 2 1 (fun _ _ _ k => ((k * 5 + 3 : Nat) : ℚ))
      (by decide) (by decide) (by decide) (by decide) (by decide)
      (fun bb i j k _ _ _ _ => ⟨k * 5 + 3, rfl, by omega⟩)
      ⟨0, 0, 0, 0, by decide, by decide, by decide, by decide, by norm_num⟩⟩

/-- C4 counterexample: the unqualified claim fails at a rank-2 constant
array of value `-3` — rank 2 always gives channel evidence, yet the
out-of-range rescale divides by zero there, so `format_img` does not
produce a well-defined canonical array. -/
theorem format_img_canonical_cex :
    ¬ ∃ r : Arr4N, format_img (.r2 1 1 (fun _ _ => -3)) = .ok r ∧
      1 ≤ r.b ∧ r.c = 3 ∧
      ∀ bb i j k, bb < r.b → i < r.h → j < r.w → k < 3 → r.data bb i j k ≤ 255 := by
  rintro ⟨r, hok, _⟩
  have hdiv : format_img (.r2 1 1 (fun _ _ => -3)) = .error .divByZero := rfl
  rw [hdiv] at hok
  cases hok

theorem tileFold_succ (b h w nc hp wp p pv : Nat) (x : Nat → Nat → Nat → Nat → Nat)
    (m : Nat) :
    tileFold b h w nc hp wp p pv x (m + 1)
      = tileStep b h w nc hp wp p x (tileFold b h w nc hp wp p pv x m) m := by
  unfold tileFold
  rw [List.range_succ, List.foldl_append]
  rfl

theorem strip_disjoint (s p r1 r2 y : Nat) (hlt : r1 < r2)
    (ha : r1 * (s + p) + p ≤ y ∧ y < r1 * (s + p) + p + s)
    (hb2 : r2 * (s + p) + p ≤ y) : False := by
  have hx : r1 * (s + p) + (s + p) ≤ r2 * (s + p) := by
    calc r1 * (s + p) + (s + p) = (r1 + 1) * (s + p) := by ring
      _ ≤ r2 * (s + p) := Nat.mul_le_mul_right _ (Nat.succ_le_of_lt hlt)
  omega

theorem cell_disjoint (h w p nc k1 k2 y xx : Nat) (hnc : 1 ≤ nc) (hne : k1 ≠ k2)
    (h1r : k1 / nc * (h + p) + p ≤ y ∧ y < k1 / nc * (h + p) + p + h)
    (h1c : k1 % nc * (w + p) + p ≤ xx ∧ xx < k1 % nc * (w + p) + p + w)
    (h2r : k2 / nc * (h + p) + p ≤ y ∧ y < k2 / nc * (h + p) + p + h)
    (h2c : k2 % nc * (w + p) + p ≤ xx ∧ xx < k2 % nc * (w + p) + p + w) :
    False := by
  by_cases hr : k1 / nc = k2 / nc
  · have hc : k1 % nc ≠ k2 % nc := by
      intro hcc
      apply hne
      have e1 := Nat.div_add_mod k1 nc
      have e2 := Nat.div_add_mod k2 nc
      rw [hr, hcc] at e1
      omega
    rcases Nat.lt_or_ge (k1 % nc) (k2 % nc) with hlt | hge
    · exact strip_disjoint w p (k1 % nc) (k2 % nc) xx hlt h1c h2c.1
    · exact strip_disjoint w p (k2 % nc) (k1 % nc) xx (by omega) h2c h1c.1
  · rcases Nat.lt_or_ge (k1 / nc) (k2 / nc) with hlt | hge
    · exact strip_disjoint h p (k1 / nc) (k2 / nc) y hlt h1r h2r.1
    · exact strip_disjoint h p (k2 / nc) (k1 / nc) y (by omega) h2r h1r.1

theorem tileFold_placed (b h w nc p pv : Nat) (x : Nat → Nat → Nat → Nat → Nat)
    (hnc : 1 ≤ nc) :
    ∀ m, ∀ k, k < m → k < b → ∀ i, i < h → ∀ j, j < w → ∀ ch,
      tileFold b h w nc (h + p) (w + p) p pv x m
        (k / nc * (h + p) + p + i) (k % nc * (w + p) + p + j) ch = x k i j ch := by
  intro m
  induction m with
  | zero => intro k hk; omega
  | succ m ih =>
    intro k hk hkb i hi j hj ch
    rw [tileFold_succ]
    unfold tileStep
    by_cases hmb : m < b
    · rw [if_pos hmb]
      by_cases hkm : k = m
      · subst hkm
        unfold place
        rw [if_pos (by omega)]
        have e1 : k / nc * (h + p) + p + i - (k / nc * (h + p) + p) = i := by omega
        have e2 : k % nc * (w + p) + p + j - (k % nc * (w + p) + p) = j := by omega
        rw [e1, e2]
      · have hnotin : ¬(m / nc * (h + p) + p ≤ k / nc * (h + p) + p + i ∧
            k / nc * (h + p) + p + i < m / nc * (h + p) + p + h ∧
            m % nc * (w + p) + p ≤ k % nc * (w + p) + p + j ∧
            k % nc * (w + p) + p + j < m % nc * (w + p) + p + w) := by
          rintro ⟨c1, c2, c3, c4⟩
          exact cell_disjoint h w p nc k m
            (k / nc * (h + p) + p + i) (k % nc * (w + p) + p + j) hnc hkm
            ⟨by omega, by omega⟩ ⟨by omega, by omega⟩ ⟨c1, c2⟩ ⟨c3, c4⟩
        unfold place
        rw [if_neg hnotin]
        exact ih k (by omega) hkb i hi j hj ch
    · rw [if_neg hmb]
      exact ih k (by omega) hkb i hi j hj ch

theorem tileFold_pad (b h w nc p pv : Nat) (x : Nat → Nat → Nat → Nat → Nat) :
    ∀ m y xx ch,
      (∀ k, k < m → k < b →
        ¬(k / nc * (h + p) + p ≤ y ∧ y < k / nc * (h + p) + p + h ∧
          k % nc * (w + p) + p ≤ xx ∧ xx < k % nc * (w + p) + p + w)) →
      tileFold b h w nc (h + p) (w + p) p pv x m y xx ch = pv := by
  intro m
  induction m with
  | zero => intro y xx ch _; rfl
  | succ m ih =>
    intro y xx ch hcov
    rw [tileFold_succ]
    unfold tileStep
    by_cases hmb : m < b
    · rw [if_pos hmb]
      unfold place
      rw [if_neg (hcov m (by omega) hmb)]
      exact ih y xx ch (fun k hk hkb => hcov k (by omega) hkb)
    · rw [if_neg hmb]
      exact ih y xx ch (fun k hk hkb => hcov k (by omega) hkb)

theorem grid_covers_aux (b h w nrow ncol : Nat) (hb : 1 ≤ b) (hh : 1 ≤ h) (hw : 1 ≤ w) :
    b ≤ (get_grid_size b h w nrow ncol).1 * (get_grid_size b h w nrow ncol).2 ∧
    1 ≤ (get_grid_size b h w nrow ncol).2 := by
  by_cases hr : nrow = 0
  · by_cases hc : ncol = 0
    · have hq : 0 < (b : ℚ) / w * h := by
        have hb' : (0 : ℚ) < b := by exact_mod_cast hb
        have hh' : (0 : ℚ) < h := by exact_mod_cast hh
        have hw' : (0 : ℚ) < w := by exact_mod_cast hw
        positivity
      have hs := sqrtCeil_pos ((b : ℚ) / w * h) hq
      have heq : get_grid_size b h w nrow ncol
          = (ceilDiv b (sqrtCeil ((b : ℚ) / w * h)), sqrtCeil ((b : ℚ) / w * h)) := by
        unfold get_grid_size
        simp [hr, hc]
      rw [heq]
      exact ⟨by simpa [Nat.mul_comm] using ceilDiv_ge b _ hs, hs⟩
    · have hc' : 0 < ncol := Nat.pos_of_ne_zero hc
      have heq : get_grid_size b h w nrow ncol = (ceilDiv b ncol, ncol) := by
        unfold get_grid_size
        simp [hr, hc]
      rw [heq]
      exact ⟨by simpa [Nat.mul_comm] using ceilDiv_ge b ncol hc', hc'⟩
  · have hr' : 0 < nrow := Nat.pos_of_ne_zero hr
    have heq : get_grid_size b h w nrow ncol = (nrow, ceilDiv b nrow) := by
      unfold get_grid_size
      simp [hr]
    rw [heq]
    exact ⟨ceilDiv_ge b nrow hr', ceilDiv_pos b nrow hb hr'⟩

/-- C6: tiling a canonical `[b,h,w,3]` batch produces a canvas of height
`rows*(h+padding)+padding` and width `cols*(w+padding)+padding`, places
the `b` images row-major into the cell interiors, and leaves every pixel
outside a placed interior — seams, margins, and all cells beyond `b` —
at `pad_value`; when `rows*cols > b` placement simply stops, it does not
error (the function is total on such inputs). -/
theorem tile_img_spec (b h w : Nat) (x : Nat → Nat → Nat → Nat → Nat)
    (nrow ncol padding pad_value : Nat)
    (hb : 1 ≤ b) (hh : 1 ≤ h) (hw : 1 ≤ w) :
    (tile_img b h w x nrow ncol padding pad_value).H
        = (get_grid_size b h w nrow ncol).1 * (h + padding) + padding ∧
    (tile_img b h w x nrow ncol padding pad_value).W
        = (get_grid_size b h w nrow ncol).2 * (w + padding) + padding ∧
    (∀ k, k < b → ∀ i, i < h → ∀ j, j < w → ∀ ch,
      (tile_img b h w x nrow ncol padding pad_value).data
          (k / (get_grid_size b h w nrow ncol).2 * (h + padding) + padding + i)
          (k % (get_grid_size b h w nrow ncol).2 * (w + padding) + padding + j) ch
        = x k i j ch) ∧
    (∀ y xx ch,
      (∀ k, k < b →
        ¬(k / (get_grid_size b h w nrow ncol).2 * (h + padding) + padding ≤ y ∧
          y < k / (get_grid_size b h w nrow ncol).2 * (h + padding) + padding + h ∧
          k % (get_grid_size b h w nrow ncol).2 * (w + padding) + padding ≤ xx ∧
          xx < k % (get_grid_size b h w nrow ncol).2 * (w + padding) + padding + w)) →
      (tile_img b h w x nrow ncol padding pad_value).data y xx ch = pad_value) := by
  obtain ⟨hcov, hnc⟩ := grid_covers_aux b h w nrow ncol hb hh hw
  unfold tile_img
  dsimp only
  refine ⟨by ring, by ring, ?_, ?_⟩
  · intro k hk i hi j hj ch
    exact tileFold_placed b h w (get_grid_size b h w nrow ncol).2 padding pad_value x hnc
      ((get_grid_size b h w nrow ncol).1 * (get_grid_size b h w nrow ncol).2)
      k (by omega) hk i hi j hj ch
  · intro y xx ch hcovpt
    exact tileFold_pad b h w (get_grid_size b h w nrow ncol).2 padding pad_value x
      ((get_grid_size b h w nrow ncol).1 * (get_grid_size b h w nrow ncol).2)
      y xx ch (fun k _ hkb => hcovpt k hkb)

/-- C6 witness: 3 images of size 4×4 with padding 2 and rows 2 give a
14×14 canvas (`2*(4+2)+2`); the placed interiors carry the images and
the unused fourth cell stays at the pad value 7. -/
theorem tile_img_spec_witness :
    (1 ≤ 3 ∧ 1 ≤ 4) ∧
    ((tile_img 3 4 4 (fun k _ _ _ => k + 1) 2 0 2 7).H
        = (get_grid_size 3 4 4 2 0).1 * (4 + 2) + 2 ∧
      (tile_img 3 4 4 (fun k _ _ _ => k + 1) 2 0 2 7).W
        = (get_grid_size 3 4 4 2 0).2 * (4 + 2) + 2 ∧
      (∀ k, k < 3 → ∀ i, i < 4 → ∀ j, j < 4 → ∀ ch,
        (tile_img 3 4 4 (fun k _ _ _ => k + 1) 2 0 2 7).data
            (k / (get_grid_size 3 4 4 2 0).2 * (4 + 2) + 2 + i)
            (k % (get_grid_size 3 4 4 2 0).2 * (4 + 2) + 2 + j) ch
          = k + 1) ∧
      (∀ y xx ch,
        (∀ k, k < 3 →
          ¬(k / (get_grid_size 3 4 4 2 0).2 * (4 + 2) + 2 ≤ y ∧
            y < k / (get_grid_size 3 4 4 2 0).2 * (4 + 2) + 2 + 4 ∧
            k % (get_grid_size 3 4 4 2 0).2 * (4 + 2) + 2 ≤ xx ∧
            xx < k % (get_grid_size 3 4 4 2 0).2 * (4 + 2) + 2 + 4)) →
        (tile_img 3 4 4 (fun k _ _ _ => k + 1) 2 0 2 7).data y xx ch = 7)) ∧
    (tile_img 3 4 4 (fun k _ _ _ => k + 1) 2 0 2 7).data 8 8 0 = 7 :=
  ⟨⟨by decide, by decide⟩,
    tile_img_spec 3 4 4 (fun k _ _ _ => k + 1) 2 0 2 7 (by decide) (by decide) (by decide),
    by decide⟩
